import Mathlib

/-!
Verification of the directory-aggregation core of `diskspace` (src/main.rs).

The filesystem is modelled as a tree of entries (`FSEntry`): regular files
carry an optional size (`none` models a `fs::metadata` failure), directories
carry an optional listing (`none` models a `fs::read_dir` failure) together
with a flag saying whether their name survives `Path::to_str` (UTF-8
representability), and `other` covers entries that are neither regular files
nor directories (sockets, broken symlinks, ...).  Paths are component lists
(`List String`); the registry `BTreeMap<String, DirInfo>` becomes an
association list keyed by the path, with `BTreeMap::insert` semantics.
Machine integers (`u64` sizes, `usize` counts) are modelled as `Nat`.
`scan_directory` takes the registry by `&mut` reference and returns
`io::Result<DirInfo>`; this becomes explicit state passing where the
(possibly mutated) registry is returned alongside an `Except Unit DirInfo`.
-/

namespace Diskspace

/-- `DirInfo` from src/main.rs lines 10-15: accumulated statistics of one
directory.  `file_types : BTreeMap<String, u64>` becomes an association
list with unique keys. -/
structure DirInfo where
  size : Nat
  file_count : Nat
  largest_file : Option (List String × Nat)
  file_types : List (String × Nat)
deriving DecidableEq, Repr

/-- `DirInfo::new` (src/main.rs lines 18-25). -/
def DirInfo.new : DirInfo :=
  { size := 0, file_count := 0, largest_file := none, file_types := [] }

/-- A filesystem node as observed by the scanner.  The `Bool` on `dir` is
true when the directory's name converts to a UTF-8 string (`Path::to_str`
succeeds on paths through it); the `Option` listing is `none` when
`fs::read_dir` on it fails. A `file`'s `Option Nat` is its size metadata,
`none` when `fs::metadata` fails. -/
inductive FSEntry where
  | file (name : String) (meta : Option Nat)
  | dir (name : String) (rep : Bool) (listing : Option (List FSEntry))
  | other (name : String)
deriving Repr

/-- `path.is_dir()`. -/
def FSEntry.isDir : FSEntry → Bool
  | .dir _ _ _ => true
  | _ => false

/-- The characters of a file name after its final `.`, or `none` when the
name has no `.` at all. -/
def afterLastDot : List Char → Option (List Char)
  | [] => none
  | c :: cs =>
    match afterLastDot cs with
    | some r => some r
    | none => if c = '.' then some cs else none

/-- `Path::extension()` of a file name, with `unwrap_or("")`: the portion
after the final `.`, except that a leading `.` (hidden files) does not
begin an extension; `""` when there is none. -/
def extensionOf (name : String) : String :=
  match name.toList with
  | [] => ""
  | _ :: rest =>
    match afterLastDot rest with
    | some r => ⟨r⟩
    | none => ""

/-- `str::to_lowercase()`, character by character (`String.map Char.toLower`,
written structurally over the character list). -/
def lowerStr (s : String) : String :=
  ⟨s.toList.map Char.toLower⟩

/-- `*map.entry(k).or_insert(0) += v` on a `BTreeMap<String, u64>` viewed
as an association list. -/
def addToMap (m : List (String × Nat)) (k : String) (v : Nat) : List (String × Nat) :=
  match m with
  | [] => [(k, v)]
  | (k', v') :: rest => if k = k' then (k', v' + v) :: rest else (k', v') :: addToMap rest k v

/-- Total lookup in the extension histogram: bytes recorded for key `k`
(`0` when absent). -/
def lookup0 (m : List (String × Nat)) (k : String) : Nat :=
  match m with
  | [] => 0
  | (k', v') :: rest => if k = k' then v' else lookup0 rest k

/-- The registry `BTreeMap<String, DirInfo>` (`dir_infos` in src/main.rs),
keyed by the path. -/
abbrev Registry := List (List String × DirInfo)

/-- `BTreeMap::insert`: replace the binding of `k` when present, append
otherwise. -/
def regInsert (r : Registry) (k : List String) (v : DirInfo) : Registry :=
  match r with
  | [] => [(k, v)]
  | (k', v') :: rest => if k = k' then (k, v) :: rest else (k', v') :: regInsert rest k v

/-- Registry lookup by exact path. -/
def regLookup (r : Registry) (k : List String) : Option DirInfo :=
  match r with
  | [] => none
  | (k', v') :: rest => if k = k' then some v' else regLookup rest k

/-- The `largest_file` update of src/main.rs lines 129-138 and 151-158: a
candidate (`none` = no candidate) replaces the current value only when its
size is strictly greater, and always replaces `none`. -/
def updLO (cur cand : Option (List String × Nat)) : Option (List String × Nat) :=
  match cand with
  | none => cur
  | some c =>
    match cur with
    | some l => if c.2 > l.2 then some c else some l
    | none => some c

/-- The body of `scan_directory`'s `for entry in fs::read_dir(dir)?` loop
(src/main.rs lines 119-169), processing the entries of the directory at
path `p` in `read_dir` order.  `pr` is whether `p` itself is representable
as a UTF-8 string, `cur` the `current_info` accumulator, `reg` the registry.
An unlistable subdirectory makes the `?` on the recursive call propagate the
error; the registry, held by `&mut`, keeps all insertions made so far. -/
def scanList (p : List String) (pr : Bool) (es : List FSEntry) (cur : DirInfo)
    (reg : Registry) : Except Unit DirInfo × Registry :=
  match es with
  | [] => (.ok cur, reg)
  | .dir n r lst :: rest =>
    match lst with
    | none => (.error (), reg)
    | some ch =>
      match scanList (p ++ [n]) (pr && r) ch DirInfo.new reg with
      | (.error e, reg1) => (.error e, reg1)
      | (.ok sub, reg1) =>
        let cur1 : DirInfo :=
          { size := cur.size + sub.size
            file_count := cur.file_count + sub.file_count
            largest_file := updLO cur.largest_file sub.largest_file
            file_types := cur.file_types }
        let reg2 := if pr && r then regInsert reg1 (p ++ [n]) sub else reg1
        scanList p pr rest cur1 reg2
  | .file n meta :: rest =>
    match meta with
    | none => scanList p pr rest cur reg
    | some sz =>
      let cur1 : DirInfo :=
        { size := cur.size + sz
          file_count := cur.file_count + 1
          largest_file := updLO cur.largest_file (some (p ++ [n], sz))
          file_types := addToMap cur.file_types (lowerStr (extensionOf n)) sz }
      scanList p pr rest cur1 reg
  | .other _ :: rest => scanList p pr rest cur reg
termination_by sizeOf es
decreasing_by all_goals (simp_wf; try omega)

/-- `scan_directory(dir, dir_infos)` (src/main.rs lines 115-173) on the
node `e` that path `p` resolves to: an empty `DirInfo` when `p` is not a
directory, otherwise the fold over its listing (error when `read_dir`
fails). -/
def scanDirectory (p : List String) (pr : Bool) (e : FSEntry) (reg : Registry) :
    Except Unit DirInfo × Registry :=
  match e with
  | .dir _ _ none => (.error (), reg)
  | .dir _ _ (some ch) => scanList p pr ch DirInfo.new reg
  | _ => (.ok DirInfo.new, reg)

/-- Step equation: a subdirectory entry whose recursive scan succeeds.
The merged accumulator and (conditionally) extended registry feed the scan
of the remaining entries. -/
theorem scanList_cons_dir {p : List String} {pr : Bool} {n : String} {r : Bool}
    {ch rest : List FSEntry} {cur : DirInfo} {reg : Registry} {sub : DirInfo}
    {reg1 : Registry}
    (heq : scanList (p ++ [n]) (pr && r) ch DirInfo.new reg = (.ok sub, reg1)) :
    scanList p pr (.dir n r (some ch) :: rest) cur reg =
      scanList p pr rest
        { size := cur.size + sub.size
          file_count := cur.file_count + sub.file_count
          largest_file := updLO cur.largest_file sub.largest_file
          file_types := cur.file_types }
        (if pr && r then regInsert reg1 (p ++ [n]) sub else reg1) := by
  rw [scanList, heq]

/-- Step equation: a subdirectory entry whose recursive scan fails makes the
whole call fail, keeping the registry state the child call left behind. -/
theorem scanList_cons_dir_err {p : List String} {pr : Bool} {n : String} {r : Bool}
    {ch rest : List FSEntry} {cur : DirInfo} {reg : Registry} {e : Unit}
    {reg1 : Registry}
    (heq : scanList (p ++ [n]) (pr && r) ch DirInfo.new reg = (.error e, reg1)) :
    scanList p pr (.dir n r (some ch) :: rest) cur reg = (.error e, reg1) := by
  rw [scanList, heq]

/-! Pure functions over the filesystem tree that the scanner's results are
compared against. -/

/-- Sum of the sizes of all readable regular files in a forest, recursing
into listable subdirectories. -/
def forestBytes : List FSEntry → Nat
  | [] => 0
  | .file _ (some sz) :: rest => sz + forestBytes rest
  | .dir _ _ (some ch) :: rest => forestBytes ch + forestBytes rest
  | _ :: rest => forestBytes rest
termination_by es => sizeOf es
decreasing_by all_goals (simp_wf; try omega)

/-- Number of readable regular files in a forest, recursing into listable
subdirectories. -/
def forestCount : List FSEntry → Nat
  | [] => 0
  | .file _ (some sz) :: rest => 1 + forestCount rest
  | .dir _ _ (some ch) :: rest => forestCount ch + forestCount rest
  | _ :: rest => forestCount rest
termination_by es => sizeOf es
decreasing_by all_goals (simp_wf; try omega)

/-- The readable regular files of a forest rooted at path `p`, as
(path, size) pairs in traversal (`read_dir`) order, files of a
subdirectory appearing at the subdirectory's position. -/
def forestFiles (p : List String) : List FSEntry → List (List String × Nat)
  | [] => []
  | .file n (some sz) :: rest => (p ++ [n], sz) :: forestFiles p rest
  | .dir n _ (some ch) :: rest => forestFiles (p ++ [n]) ch ++ forestFiles p rest
  | _ :: rest => forestFiles p rest
termination_by es => sizeOf es
decreasing_by all_goals (simp_wf; try omega)

/-- Sum of the sizes of the readable regular files that are immediate
members of a directory listing (no recursion). -/
def directBytes : List FSEntry → Nat
  | [] => 0
  | .file _ (some sz) :: rest => sz + directBytes rest
  | _ :: rest => directBytes rest

/-- Number of readable regular files immediately in a directory listing. -/
def directCount : List FSEntry → Nat
  | [] => 0
  | .file _ (some _) :: rest => 1 + directCount rest
  | _ :: rest => directCount rest

/-- The immediate subdirectory entries of a listing. -/
def dirChildren : List FSEntry → List FSEntry
  | [] => []
  | e :: rest => if e.isDir then e :: dirChildren rest else dirChildren rest

/-- The listing of a directory entry (empty for anything else). -/
def childFs : FSEntry → List FSEntry
  | .dir _ _ (some ch) => ch
  | _ => []

/-- Bytes contributed to extension key `x` by the readable regular files
immediately in a listing (no recursion into subdirectories). -/
def directExtBytes (x : String) : List FSEntry → Nat
  | [] => 0
  | .file n (some sz) :: rest =>
    (if x = lowerStr (extensionOf n) then sz else 0) + directExtBytes x rest
  | _ :: rest => directExtBytes x rest

/-- Whether every directory in a forest (recursively) can be listed. -/
def forestListable : List FSEntry → Bool
  | [] => true
  | .dir _ _ none :: _ => false
  | .dir _ _ (some ch) :: rest => forestListable ch && forestListable rest
  | _ :: rest => forestListable rest
termination_by es => sizeOf es
decreasing_by all_goals (simp_wf; try omega)

/-- Whether scanning the node `e` can enumerate every directory it must
visit (non-directories are trivially fine). -/
def entryListable : FSEntry → Bool
  | .dir _ _ none => false
  | .dir _ _ (some ch) => forestListable ch
  | _ => true

/-- The registry keys a scan of the forest at representable (`pr`) path `p`
produces: one per visited subdirectory whose full path converts to a
string, in insertion order. -/
def subdirPaths (p : List String) (pr : Bool) : List FSEntry → List (List String)
  | [] => []
  | .dir n r (some ch) :: rest =>
    subdirPaths (p ++ [n]) (pr && r) ch ++
      (if pr && r then [p ++ [n]] else []) ++ subdirPaths p pr rest
  | _ :: rest => subdirPaths p pr rest
termination_by es => sizeOf es
decreasing_by all_goals (simp_wf; try omega)

/-- The first file of maximal size in a list (ties resolved to the earlier
element), expressed with the scanner's strict-`>` update. -/
def firstMax : List (List String × Nat) → Option (List String × Nat)
  | [] => none
  | x :: l => updLO (some x) (firstMax l)

/-- Follows the spec's words for the extension histogram (§3, §4.1): bytes
of ALL files with extension `x` anywhere in the subtree, child histograms
merged entry-wise into the parent.  Kept separate from the source-derived
`directExtBytes` to compare the two. -/
def specSubtreeExtBytes (x : String) : List FSEntry → Nat
  | [] => 0
  | .file n (some sz) :: rest =>
    (if x = lowerStr (extensionOf n) then sz else 0) + specSubtreeExtBytes x rest
  | .dir _ _ (some ch) :: rest => specSubtreeExtBytes x ch + specSubtreeExtBytes x rest
  | _ :: rest => specSubtreeExtBytes x rest
termination_by es => sizeOf es
decreasing_by all_goals (simp_wf; try omega)

/-- Removing one unreadable-metadata file somewhere in a forest (at the top
level or nested inside any listable subdirectory). -/
inductive dropUnreadable : List FSEntry → List FSEntry → Prop
  | here (n : String) (rest : List FSEntry) :
      dropUnreadable (.file n none :: rest) rest
  | skip (e : FSEntry) (rest rest' : List FSEntry) :
      dropUnreadable rest rest' → dropUnreadable (e :: rest) (e :: rest')
  | inside (n : String) (r : Bool) (ch ch' rest : List FSEntry) :
      dropUnreadable ch ch' →
      dropUnreadable (.dir n r (some ch) :: rest) (.dir n r (some ch') :: rest)

/-! Helper lemmas about the update and map operations. -/

theorem updLO_none (x : Option (List String × Nat)) : updLO none x = x := by
  cases x <;> simp [updLO]

theorem updLO_assoc (a b c : Option (List String × Nat)) :
    updLO (updLO a b) c = updLO a (updLO b c) := by
  rcases c with _ | c
  · rfl
  rcases b with _ | b
  · rfl
  rcases a with _ | a
  · rw [updLO_none, updLO_none]
  · by_cases h1 : b.2 > a.2 <;> by_cases h2 : c.2 > b.2 <;> by_cases h3 : c.2 > a.2 <;>
      simp [updLO, h1, h2, h3] <;> omega

theorem updLO_eq_none (a b : Option (List String × Nat)) :
    updLO a b = none ↔ a = none ∧ b = none := by
  cases a <;> cases b <;> (simp [updLO]; try (split_ifs <;> simp))

theorem firstMax_append (l1 l2 : List (List String × Nat)) :
    firstMax (l1 ++ l2) = updLO (firstMax l1) (firstMax l2) := by
  induction l1 with
  | nil => simp [firstMax, updLO_none]
  | cons x l ih => simp [firstMax, ih, updLO_assoc]

theorem firstMax_mem (l : List (List String × Nat)) (m : List String × Nat)
    (h : firstMax l = some m) : m ∈ l := by
  induction l with
  | nil => simp [firstMax] at h
  | cons x l ih =>
    rw [firstMax] at h
    cases hl : firstMax l with
    | none => rw [hl] at h; simp [updLO] at h; simp [h]
    | some m' =>
      rw [hl] at h
      simp only [updLO] at h
      split_ifs at h <;> simp_all

theorem firstMax_none (l : List (List String × Nat)) :
    firstMax l = none ↔ l = [] := by
  cases l with
  | nil => simp [firstMax]
  | cons x l' => simp [firstMax, updLO_eq_none]

theorem firstMax_ge (l : List (List String × Nat)) :
    ∀ m, firstMax l = some m → ∀ y ∈ l, y.2 ≤ m.2 := by
  induction l with
  | nil => intro m h; simp [firstMax] at h
  | cons x l ih =>
    intro m h
    rw [firstMax] at h
    cases hl : firstMax l with
    | none =>
      rw [hl] at h
      simp only [updLO] at h
      obtain rfl : x = m := Option.some.inj h
      rcases (firstMax_none l).mp hl with rfl
      simp
    | some m' =>
      rw [hl] at h
      simp only [updLO] at h
      intro y hy
      rcases List.mem_cons.mp hy with rfl | hy'
      · split_ifs at h with hgt
        · obtain rfl : m' = m := Option.some.inj h
          omega
        · obtain rfl : y = m := Option.some.inj h
          omega
      · split_ifs at h with hgt
        · obtain rfl : m' = m := Option.some.inj h
          exact ih m' hl y hy'
        · obtain rfl : x = m := Option.some.inj h
          exact le_trans (ih m' hl y hy') (by omega)

theorem firstMax_first (l : List (List String × Nat)) :
    ∀ m, firstMax l = some m → l.find? (fun y => y.2 == m.2) = some m := by
  induction l with
  | nil => intro m h; simp [firstMax] at h
  | cons x l ih =>
    intro m h
    rw [firstMax] at h
    cases hl : firstMax l with
    | none =>
      rw [hl] at h
      simp only [updLO] at h
      obtain rfl : x = m := Option.some.inj h
      simp [List.find?]
    | some m' =>
      rw [hl] at h
      simp only [updLO] at h
      split_ifs at h with hgt
      · obtain rfl : m' = m := Option.some.inj h
        have hx : (x.2 == m'.2) = false := by
          simp only [beq_eq_false_iff_ne, ne_eq]
          omega
        rw [List.find?, hx]
        exact ih m' hl
      · obtain rfl : x = m := Option.some.inj h
        simp [List.find?]

theorem lookup0_addToMap (m : List (String × Nat)) (k x : String) (v : Nat) :
    lookup0 (addToMap m k v) x = lookup0 m x + (if x = k then v else 0) := by
  induction m with
  | nil =>
    simp only [addToMap, lookup0]
    split_ifs <;> omega
  | cons kv rest ih =>
    obtain ⟨k', v'⟩ := kv
    by_cases h1 : k = k'
    · subst h1
      simp only [addToMap, if_pos rfl, lookup0]
      split_ifs <;> omega
    · simp only [addToMap, if_neg h1, lookup0]
      by_cases h2 : x = k'
      · have hxk : ¬x = k := fun hh => h1 (by rw [← hh, h2])
        simp [if_pos h2, if_neg hxk]
      · simp only [if_neg h2]
        exact ih

theorem regLookup_regInsert (r : Registry) (k x : List String) (v : DirInfo) :
    (regLookup (regInsert r k v) x).isSome = true ↔
      (regLookup r x).isSome = true ∨ x = k := by
  induction r with
  | nil =>
    simp only [regInsert, regLookup]
    split_ifs with h <;> simp [regLookup, h]
  | cons kv rest ih =>
    obtain ⟨k', v'⟩ := kv
    by_cases h1 : k = k'
    · subst h1
      simp only [regInsert, if_pos rfl, regLookup]
      split_ifs with h2 <;> simp [h2]
    · simp only [regInsert, if_neg h1, regLookup]
      by_cases h2 : x = k'
      · simp [if_pos h2]
      · simp only [if_neg h2]
        exact ih

/-! Correspondence lemmas: each field of the `DirInfo` a successful
`scanList` returns, against the pure functions of the tree. -/

theorem scanList_size (p : List String) (pr : Bool) (es : List FSEntry)
    (cur : DirInfo) (reg : Registry) :
    ∀ info reg', scanList p pr es cur reg = (.ok info, reg') →
      info.size = cur.size + forestBytes es := by
  induction p, pr, es, cur, reg using scanList.induct with
  | case1 p pr cur reg =>
    intro info reg' h
    simp [scanList] at h
    simp [h.1, forestBytes]
  | case2 p pr cur reg n r rest =>
    intro info reg' h
    simp [scanList] at h
  | case3 p pr cur reg n r rest ch e reg1 heq ih =>
    intro info reg' h
    rw [scanList, heq] at h
    simp at h
  | case4 p pr cur reg n r rest ch sub reg1 heq cur1 reg2 ih1 ih2 =>
    intro info reg' h
    rw [scanList, heq] at h
    simp only at h
    unfold cur1 reg2 at ih2
    have hsub := ih1 sub reg1 heq
    have hrest := ih2 info reg' h
    simp [DirInfo.new] at hsub
    simp [forestBytes, hrest, hsub]
    omega
  | case5 p pr cur reg n rest ih =>
    intro info reg' h
    rw [scanList] at h
    have := ih info reg' h
    simp [forestBytes, this]
  | case6 p pr cur reg n rest sz cur1 ih =>
    intro info reg' h
    rw [scanList] at h
    have := ih info reg' h
    simp [forestBytes, this]
    omega
  | case7 p pr cur reg n rest ih =>
    intro info reg' h
    rw [scanList] at h
    have := ih info reg' h
    simp [forestBytes, this]

theorem scanList_count (p : List String) (pr : Bool) (es : List FSEntry)
    (cur : DirInfo) (reg : Registry) :
    ∀ info reg', scanList p pr es cur reg = (.ok info, reg') →
      info.file_count = cur.file_count + forestCount es := by
  induction p, pr, es, cur, reg using scanList.induct with
  | case1 p pr cur reg =>
    intro info reg' h
    simp [scanList] at h
    simp [h.1, forestCount]
  | case2 p pr cur reg n r rest =>
    intro info reg' h
    simp [scanList] at h
  | case3 p pr cur reg n r rest ch e reg1 heq ih =>
    intro info reg' h
    rw [scanList, heq] at h
    simp at h
  | case4 p pr cur reg n r rest ch sub reg1 heq cur1 reg2 ih1 ih2 =>
    intro info reg' h
    rw [scanList, heq] at h
    simp only at h
    unfold cur1 reg2 at ih2
    have hsub := ih1 sub reg1 heq
    have hrest := ih2 info reg' h
    simp [DirInfo.new] at hsub
    simp [forestCount, hrest, hsub]
    omega
  | case5 p pr cur reg n rest ih =>
    intro info reg' h
    rw [scanList] at h
    have := ih info reg' h
    simp [forestCount, this]
  | case6 p pr cur reg n rest sz cur1 ih =>
    intro info reg' h
    rw [scanList] at h
    have := ih info reg' h
    simp [forestCount, this]
    omega
  | case7 p pr cur reg n rest ih =>
    intro info reg' h
    rw [scanList] at h
    have := ih info reg' h
    simp [forestCount, this]

theorem scanList_largest (p : List String) (pr : Bool) (es : List FSEntry)
    (cur : DirInfo) (reg : Registry) :
    ∀ info reg', scanList p pr es cur reg = (.ok info, reg') →
      info.largest_file = updLO cur.largest_file (firstMax (forestFiles p es)) := by
  induction p, pr, es, cur, reg using scanList.induct with
  | case1 p pr cur reg =>
    intro info reg' h
    simp [scanList] at h
    simp [h.1, forestFiles, firstMax, updLO]
  | case2 p pr cur reg n r rest =>
    intro info reg' h
    simp [scanList] at h
  | case3 p pr cur reg n r rest ch e reg1 heq ih =>
    intro info reg' h
    rw [scanList, heq] at h
    simp at h
  | case4 p pr cur reg n r rest ch sub reg1 heq cur1 reg2 ih1 ih2 =>
    intro info reg' h
    rw [scanList, heq] at h
    simp only at h
    unfold cur1 reg2 at ih2
    have hsub := ih1 sub reg1 heq
    have hrest := ih2 info reg' h
    simp [DirInfo.new, updLO_none] at hsub
    rw [forestFiles, firstMax_append, ← updLO_assoc, ← hsub]
    simpa using hrest
  | case5 p pr cur reg n rest ih =>
    intro info reg' h
    rw [scanList] at h
    have := ih info reg' h
    simp [forestFiles, this]
  | case6 p pr cur reg n rest sz cur1 ih =>
    intro info reg' h
    rw [scanList] at h
    have := ih info reg' h
    rw [forestFiles, firstMax, ← updLO_assoc]
    simpa using this
  | case7 p pr cur reg n rest ih =>
    intro info reg' h
    rw [scanList] at h
    have := ih info reg' h
    simp [forestFiles, this]

theorem scanList_types (p : List String) (pr : Bool) (es : List FSEntry)
    (cur : DirInfo) (reg : Registry) :
    ∀ info reg', scanList p pr es cur reg = (.ok info, reg') →
      ∀ x, lookup0 info.file_types x = lookup0 cur.file_types x + directExtBytes x es := by
  induction p, pr, es, cur, reg using scanList.induct with
  | case1 p pr cur reg =>
    intro info reg' h
    simp [scanList] at h
    simp [h.1, directExtBytes]
  | case2 p pr cur reg n r rest =>
    intro info reg' h
    simp [scanList] at h
  | case3 p pr cur reg n r rest ch e reg1 heq ih =>
    intro info reg' h
    rw [scanList, heq] at h
    simp at h
  | case4 p pr cur reg n r rest ch sub reg1 heq cur1 reg2 ih1 ih2 =>
    intro info reg' h
    rw [scanList, heq] at h
    simp only at h
    unfold cur1 reg2 at ih2
    have hrest := ih2 info reg' h
    intro x
    simp [directExtBytes, hrest x]
  | case5 p pr cur reg n rest ih =>
    intro info reg' h
    rw [scanList] at h
    have := ih info reg' h
    intro x
    simp [directExtBytes, this x]
  | case6 p pr cur reg n rest sz cur1 ih =>
    intro info reg' h
    rw [scanList] at h
    have := ih info reg' h
    intro x
    rw [directExtBytes]
    rw [this x]
    simp only [lookup0_addToMap]
    omega
  | case7 p pr cur reg n rest ih =>
    intro info reg' h
    rw [scanList] at h
    have := ih info reg' h
    intro x
    simp [directExtBytes, this x]

/-- A scan of a forest succeeds exactly when every directory in it can be
listed. -/
theorem scanList_isOk (p : List String) (pr : Bool) (es : List FSEntry)
    (cur : DirInfo) (reg : Registry) :
    (scanList p pr es cur reg).1.isOk = forestListable es := by
  induction p, pr, es, cur, reg using scanList.induct with
  | case1 p pr cur reg =>
    simp [scanList, forestListable, Except.isOk, Except.toBool]
  | case2 p pr cur reg n r rest =>
    simp [scanList, forestListable, Except.isOk, Except.toBool]
  | case3 p pr cur reg n r rest ch e reg1 heq ih =>
    rw [scanList_cons_dir_err heq]
    rw [heq] at ih
    simp [Except.isOk, Except.toBool] at ih
    simp [forestListable, Except.isOk, Except.toBool, ← ih]
  | case4 p pr cur reg n r rest ch sub reg1 heq cur1 reg2 ih1 ih2 =>
    rw [scanList_cons_dir heq]
    unfold cur1 reg2 at ih2
    simp only [dite_eq_ite] at ih2
    rw [ih2]
    rw [heq] at ih1
    simp [Except.isOk, Except.toBool] at ih1
    simp [forestListable, ih1]
  | case5 p pr cur reg n rest ih =>
    rw [scanList]
    simpa [forestListable] using ih
  | case6 p pr cur reg n rest sz cur1 ih =>
    rw [scanList]
    simpa [forestListable] using ih
  | case7 p pr cur reg n rest ih =>
    rw [scanList]
    simpa [forestListable] using ih

/-- Registry keys only accumulate: anything present before a (possibly
failing) scan is still present afterwards. -/
theorem scanList_reg_mono (p : List String) (pr : Bool) (es : List FSEntry)
    (cur : DirInfo) (reg : Registry) :
    ∀ k, (regLookup reg k).isSome = true →
      (regLookup (scanList p pr es cur reg).2 k).isSome = true := by
  induction p, pr, es, cur, reg using scanList.induct with
  | case1 p pr cur reg =>
    intro k hk
    simpa [scanList] using hk
  | case2 p pr cur reg n r rest =>
    intro k hk
    simpa [scanList] using hk
  | case3 p pr cur reg n r rest ch e reg1 heq ih =>
    intro k hk
    rw [scanList, heq]
    have := ih k hk
    rw [heq] at this
    exact this
  | case4 p pr cur reg n r rest ch sub reg1 heq cur1 reg2 ih1 ih2 =>
    intro k hk
    rw [scanList, heq]
    simp only
    have h1 : (regLookup reg1 k).isSome = true := by
      have := ih1 k hk
      rw [heq] at this
      exact this
    apply ih2
    unfold reg2
    split_ifs with hc
    · exact (regLookup_regInsert reg1 (p ++ [n]) k sub).mpr (Or.inl h1)
    · exact h1
  | case5 p pr cur reg n rest ih =>
    intro k hk
    rw [scanList]
    exact ih k hk
  | case6 p pr cur reg n rest sz cur1 ih =>
    intro k hk
    rw [scanList]
    exact ih k hk
  | case7 p pr cur reg n rest ih =>
    intro k hk
    rw [scanList]
    exact ih k hk

/-- After a successful scan the registry holds exactly its old keys plus
one key per visited subdirectory with a representable path. -/
theorem scanList_reg (p : List String) (pr : Bool) (es : List FSEntry)
    (cur : DirInfo) (reg : Registry) :
    ∀ info reg', scanList p pr es cur reg = (.ok info, reg') →
      ∀ k, (regLookup reg' k).isSome = true ↔
        (regLookup reg k).isSome = true ∨ k ∈ subdirPaths p pr es := by
  induction p, pr, es, cur, reg using scanList.induct with
  | case1 p pr cur reg =>
    intro info reg' h k
    simp [scanList] at h
    simp [← h.2, subdirPaths]
  | case2 p pr cur reg n r rest =>
    intro info reg' h
    simp [scanList] at h
  | case3 p pr cur reg n r rest ch e reg1 heq ih =>
    intro info reg' h
    rw [scanList, heq] at h
    simp at h
  | case4 p pr cur reg n r rest ch sub reg1 heq cur1 reg2 ih1 ih2 =>
    intro info reg' h k
    rw [scanList, heq] at h
    simp only at h
    unfold cur1 reg2 at ih2
    have hrest := ih2 info reg' h k
    have hch := ih1 sub reg1 heq k
    rw [hrest]
    simp only [subdirPaths]
    split_ifs with hc
    · rw [regLookup_regInsert, hch]
      simp [hc]
      tauto
    · rw [hch]
      simp [hc]
      tauto
  | case5 p pr cur reg n rest ih =>
    intro info reg' h k
    rw [scanList] at h
    rw [ih info reg' h k]
    simp [subdirPaths]
  | case6 p pr cur reg n rest sz cur1 ih =>
    intro info reg' h k
    rw [scanList] at h
    rw [ih info reg' h k]
    simp [subdirPaths]
  | case7 p pr cur reg n rest ih =>
    intro info reg' h k
    rw [scanList] at h
    rw [ih info reg' h k]
    simp [subdirPaths]

/-- A key of `regInsert r k v` is a key of `r` or is `k`. -/
theorem regInsert_keys (r : Registry) (k : List String) (v : DirInfo) :
    ∀ x, x ∈ (regInsert r k v).map Prod.fst → x ∈ r.map Prod.fst ∨ x = k := by
  induction r with
  | nil =>
    intro x hx
    simp [regInsert] at hx
    simp [hx]
  | cons kv rest ih =>
    obtain ⟨k', v'⟩ := kv
    intro x hx
    rw [regInsert] at hx
    split_ifs at hx with h1
    · simp only [List.map_cons, List.mem_cons] at hx
      rcases hx with rfl | hx
      · right; rfl
      · left
        simp only [List.map_cons, List.mem_cons]
        exact Or.inr hx
    · simp only [List.map_cons, List.mem_cons] at hx
      rcases hx with rfl | hx
      · left
        rw [List.map_cons]
        exact List.mem_cons_self _ _
      · rcases ih x hx with h | h
        · left
          simp only [List.map_cons, List.mem_cons] at h ⊢
          exact Or.inr h
        · right; exact h

/-- `regInsert` keeps registry keys duplicate-free. -/
theorem regInsert_nodup (r : Registry) (k : List String) (v : DirInfo)
    (h : (r.map Prod.fst).Nodup) : ((regInsert r k v).map Prod.fst).Nodup := by
  induction r with
  | nil => simp [regInsert]
  | cons kv rest ih =>
    obtain ⟨k', v'⟩ := kv
    simp only [List.map_cons, List.nodup_cons] at h
    rw [regInsert]
    split_ifs with h1
    · subst h1
      simp only [List.map_cons, List.nodup_cons]
      exact ⟨h.1, h.2⟩
    · simp only [List.map_cons, List.nodup_cons]
      refine ⟨?_, ih h.2⟩
      intro hmem
      rcases regInsert_keys rest k v k' hmem with hin | hek
      · exact h.1 hin
      · exact h1 hek.symm

/-- A scan never introduces duplicate registry keys. -/
theorem scanList_nodup (p : List String) (pr : Bool) (es : List FSEntry)
    (cur : DirInfo) (reg : Registry) :
    (reg.map Prod.fst).Nodup →
      (((scanList p pr es cur reg).2).map Prod.fst).Nodup := by
  induction p, pr, es, cur, reg using scanList.induct with
  | case1 p pr cur reg =>
    intro hnd
    simpa [scanList] using hnd
  | case2 p pr cur reg n r rest =>
    intro hnd
    simpa [scanList] using hnd
  | case3 p pr cur reg n r rest ch e reg1 heq ih =>
    intro hnd
    rw [scanList, heq]
    have := ih hnd
    rw [heq] at this
    exact this
  | case4 p pr cur reg n r rest ch sub reg1 heq cur1 reg2 ih1 ih2 =>
    intro hnd
    rw [scanList, heq]
    simp only
    apply ih2
    have h1 : (reg1.map Prod.fst).Nodup := by
      have := ih1 hnd
      rw [heq] at this
      exact this
    unfold reg2
    split_ifs with hc
    · exact regInsert_nodup reg1 (p ++ [n]) sub h1
    · exact h1
  | case5 p pr cur reg n rest ih =>
    intro hnd
    rw [scanList]
    exact ih hnd
  | case6 p pr cur reg n rest sz cur1 ih =>
    intro hnd
    rw [scanList]
    exact ih hnd
  | case7 p pr cur reg n rest ih =>
    intro hnd
    rw [scanList]
    exact ih hnd

/-- A winner of the `largest_file` update is one of its two arguments. -/
theorem updLO_cases (a b : Option (List String × Nat)) (x : List String × Nat)
    (h : updLO a b = some x) : a = some x ∨ b = some x := by
  rcases b with _ | c
  · left; exact h
  · rcases a with _ | l
    · right; exact h
    · simp only [updLO] at h
      split_ifs at h
      · right; exact h
      · left; exact h

/-- Internal consistency of a `DirInfo`: a largest file is recorded exactly
when some file was counted, and its size never exceeds the byte total. -/
def DirInfo.wf (d : DirInfo) : Prop :=
  (d.largest_file = none ↔ d.file_count = 0) ∧
    ∀ q s, d.largest_file = some (q, s) → s ≤ d.size

theorem DirInfo.wf_new : DirInfo.new.wf := by
  constructor
  · simp [DirInfo.new]
  · intro q s h
    simp [DirInfo.new] at h

/-- Processing entries preserves the `DirInfo` consistency invariant, both
when a direct file is added and when a child aggregate is merged. -/
theorem scanList_wf (p : List String) (pr : Bool) (es : List FSEntry)
    (cur : DirInfo) (reg : Registry) :
    cur.wf → ∀ info reg', scanList p pr es cur reg = (.ok info, reg') → info.wf := by
  induction p, pr, es, cur, reg using scanList.induct with
  | case1 p pr cur reg =>
    intro hwf info reg' h
    simp [scanList] at h
    rw [← h.1]
    exact hwf
  | case2 p pr cur reg n r rest =>
    intro hwf info reg' h
    simp [scanList] at h
  | case3 p pr cur reg n r rest ch e reg1 heq ih =>
    intro hwf info reg' h
    rw [scanList, heq] at h
    simp at h
  | case4 p pr cur reg n r rest ch sub reg1 heq cur1 reg2 ih1 ih2 =>
    intro hwf info reg' h
    rw [scanList, heq] at h
    simp only at h
    unfold cur1 reg2 at ih2
    have hsub : sub.wf := ih1 DirInfo.wf_new sub reg1 heq
    apply ih2 _ info reg' h
    constructor
    · simp only [updLO_eq_none, hwf.1, hsub.1]
      omega
    · intro q s hqs
      show s ≤ cur.size + sub.size
      have hqs2 : updLO cur.largest_file sub.largest_file = some (q, s) := hqs
      rcases updLO_cases _ _ _ hqs2 with hc | hc
      · exact le_trans (hwf.2 q s hc) (Nat.le_add_right _ _)
      · exact le_trans (hsub.2 q s hc) (Nat.le_add_left _ _)
  | case5 p pr cur reg n rest ih =>
    intro hwf info reg' h
    rw [scanList] at h
    exact ih hwf info reg' h
  | case6 p pr cur reg n rest sz cur1 ih =>
    intro hwf info reg' h
    rw [scanList] at h
    apply ih _ info reg' h
    unfold cur1
    constructor
    · simp only [updLO_eq_none, hwf.1]
      simp
    · intro q s hqs
      show s ≤ cur.size + sz
      have hqs2 : updLO cur.largest_file (some (p ++ [n], sz)) = some (q, s) := hqs
      rcases updLO_cases _ _ _ hqs2 with hc | hc
      · exact le_trans (hwf.2 q s hc) (Nat.le_add_right _ _)
      · have h' := Option.some.inj hc
        have hs : sz = s := congrArg Prod.snd h'
        omega
  | case7 p pr cur reg n rest ih =>
    intro hwf info reg' h
    rw [scanList] at h
    exact ih hwf info reg' h

/-- Removing a metadata-unreadable file anywhere in the forest leaves the
whole scan — result and registry — unchanged. -/
theorem scanList_drop {es es' : List FSEntry} (hd : dropUnreadable es es') :
    ∀ p pr cur reg, scanList p pr es cur reg = scanList p pr es' cur reg := by
  induction hd with
  | here n rest =>
    intro p pr cur reg
    rw [scanList]
  | skip e rest rest' hrest ih =>
    intro p pr cur reg
    rcases e with ⟨n, _ | sz⟩ | ⟨n, r, _ | ch⟩ | n
    · simp only [scanList]
      exact ih p pr cur reg
    · simp only [scanList]
      exact ih p pr _ _
    · simp only [scanList]
    · rcases hsc : scanList (p ++ [n]) (pr && r) ch DirInfo.new reg with ⟨res, reg1⟩
      rcases res with e' | sub
      · rw [scanList_cons_dir_err hsc, scanList_cons_dir_err hsc]
      · rw [scanList_cons_dir hsc, scanList_cons_dir hsc]
        exact ih p pr _ _
    · simp only [scanList]
      exact ih p pr cur reg
  | inside n r ch ch' rest hch ih =>
    intro p pr cur reg
    rcases hsc : scanList (p ++ [n]) (pr && r) ch' DirInfo.new reg with ⟨res, reg1⟩
    have hsc2 : scanList (p ++ [n]) (pr && r) ch DirInfo.new reg = (res, reg1) := by
      rw [ih (p ++ [n]) (pr && r) DirInfo.new reg, hsc]
    rcases res with e' | sub
    · rw [scanList_cons_dir_err hsc2, scanList_cons_dir_err hsc]
    · rw [scanList_cons_dir hsc2, scanList_cons_dir hsc]

/-- Subtree bytes decompose into immediate file bytes plus the subtree
bytes of each immediate subdirectory. -/
theorem forestBytes_decomp (es : List FSEntry) :
    forestBytes es = directBytes es +
      ((dirChildren es).map (fun c => forestBytes (childFs c))).sum := by
  induction es with
  | nil => simp [forestBytes, directBytes, dirChildren]
  | cons e rest ih =>
    rcases e with ⟨n, _ | sz⟩ | ⟨n, r, _ | ch⟩ | n <;>
      simp [forestBytes, directBytes, dirChildren, FSEntry.isDir, childFs, ih] <;>
      omega

/-- Subtree file counts decompose the same way. -/
theorem forestCount_decomp (es : List FSEntry) :
    forestCount es = directCount es +
      ((dirChildren es).map (fun c => forestCount (childFs c))).sum := by
  induction es with
  | nil => simp [forestCount, directCount, dirChildren]
  | cons e rest ih =>
    rcases e with ⟨n, _ | sz⟩ | ⟨n, r, _ | ch⟩ | n <;>
      simp [forestCount, directCount, dirChildren, FSEntry.isDir, childFs, ih] <;>
      omega

/-- In a fully listable forest, every immediate subdirectory has a listing
that is itself fully listable. -/
theorem dirChildren_listable (es : List FSEntry) :
    forestListable es = true →
      ∀ c ∈ dirChildren es, ∃ n r ch, c = .dir n r (some ch) ∧
        forestListable ch = true := by
  induction es with
  | nil =>
    intro _ c hc
    simp [dirChildren] at hc
  | cons e rest ih =>
    intro h c hc
    rcases e with ⟨n, mo⟩ | ⟨n, r, _ | ch⟩ | n
    · simp [forestListable] at h
      simp [dirChildren, FSEntry.isDir] at hc
      exact ih h c hc
    · simp [forestListable] at h
    · simp [forestListable] at h
      simp [dirChildren, FSEntry.isDir] at hc
      rcases hc with rfl | hc'
      · exact ⟨n, r, ch, rfl, h.1⟩
      · exact ih h.2 c hc'
    · simp [forestListable] at h
      simp [dirChildren, FSEntry.isDir] at hc
      exact ih h c hc

/-- Every registered subdirectory path strictly extends the scan root's
path. -/
theorem subdirPaths_length (p : List String) (pr : Bool) (es : List FSEntry) :
    ∀ k ∈ subdirPaths p pr es, p.length < k.length := by
  induction p, pr, es using subdirPaths.induct with
  | case1 p pr =>
    intro k hk
    simp [subdirPaths] at hk
  | case2 p pr n r ch rest ih1 ih2 =>
    intro k hk
    rw [subdirPaths] at hk
    rcases List.mem_append.mp hk with h1 | h4
    · rcases List.mem_append.mp h1 with h2 | h3
      · have := ih1 k h2
        simp at this
        omega
      · have hkp : k = p ++ [n] := by
          split_ifs at h3 with hc
          · simpa using h3
          · simp at h3
        simp [hkp]
    · exact ih2 k h4
  | case3 p pr e rest hne ih =>
    intro k hk
    rcases e with ⟨n, mo⟩ | ⟨n, r, _ | ch⟩ | n
    · rw [subdirPaths.eq_def] at hk
      exact ih k hk
    · rw [subdirPaths.eq_def] at hk
      exact ih k hk
    · exact (hne n r ch rfl).elim
    · rw [subdirPaths.eq_def] at hk
      exact ih k hk

/-- A pair whose first component is `Except.ok`-shaped. -/
theorem isOk_exists (x : Except Unit DirInfo × Registry) (h : x.1.isOk = true) :
    ∃ info reg', x = (.ok info, reg') := by
  rcases x with ⟨res, reg'⟩
  rcases res with e | info
  · simp [Except.isOk, Except.toBool] at h
  · exact ⟨info, reg', rfl⟩

/-! Concrete fixture used by the witnesses: a root directory holding one
readable file and one subdirectory with one readable file. -/

/-- Witness fixture tree: `root/{a.txt (100 bytes), sub/{b.bin (7 bytes)}}`. -/
def fixtureTree : FSEntry :=
  .dir "root" true (some
    [.file "a.txt" (some 100),
     .dir "sub" true (some [.file "b.bin" (some 7)])])

/-- The aggregate `scan_directory` computes for `fixtureTree`'s root. -/
def fixtureInfo : DirInfo :=
  { size := 107, file_count := 2,
    largest_file := some (["root", "a.txt"], 100),
    file_types := [("txt", 100)] }

/-- The aggregate `scan_directory` computes for `fixtureTree`'s `sub`. -/
def fixtureSub : DirInfo :=
  { size := 7, file_count := 1,
    largest_file := some (["root", "sub", "b.bin"], 7),
    file_types := [("bin", 7)] }

/-- The registry a scan of `fixtureTree` leaves behind. -/
def fixtureReg : Registry := [(["root", "sub"], fixtureSub)]

theorem fixture_scan :
    scanDirectory ["root"] true fixtureTree [] = (.ok fixtureInfo, fixtureReg) := by
  simp [fixtureTree, fixtureInfo, fixtureSub, fixtureReg, scanDirectory, scanList,
    updLO, addToMap, regInsert, DirInfo.new]
  decide

/-! The claims. -/

/-- Claim C3 (confirmed): for every directory that scans successfully, the
returned `total_bytes` is the sum of the sizes of its immediate readable
regular files plus the subtree byte totals of its immediate subdirectories;
and each immediate subdirectory, scanned on its own, succeeds and reports
exactly its subtree byte total, so the decomposition is the recursive sum
invariant of the spec. -/
theorem claim_C3 (p : List String) (pr : Bool) (n : String) (r : Bool)
    (es : List FSEntry) (reg : Registry) (info : DirInfo) (reg' : Registry)
    (h : scanDirectory p pr (.dir n r (some es)) reg = (.ok info, reg')) :
    info.size = directBytes es +
        ((dirChildren es).map (fun c => forestBytes (childFs c))).sum ∧
      ∀ c ∈ dirChildren es, ∀ q qr reg2, ∃ cinfo reg3,
        scanDirectory q qr c reg2 = (.ok cinfo, reg3) ∧
          cinfo.size = forestBytes (childFs c) := by
  have hs : scanList p pr es DirInfo.new reg = (.ok info, reg') := h
  constructor
  · have hsz := scanList_size p pr es DirInfo.new reg info reg' hs
    simp [DirInfo.new] at hsz
    rw [hsz, forestBytes_decomp]
  · intro c hc q qr reg2
    have hok : forestListable es = true := by
      have h2 := scanList_isOk p pr es DirInfo.new reg
      rw [hs] at h2
      simpa [Except.isOk, Except.toBool] using h2.symm
    obtain ⟨n2, r2, ch2, rfl, hch⟩ := dirChildren_listable es hok c hc
    have h3 : (scanList q qr ch2 DirInfo.new reg2).1.isOk = true := by
      rw [scanList_isOk]
      exact hch
    obtain ⟨cinfo, reg3, hceq⟩ := isOk_exists _ h3
    refine ⟨cinfo, reg3, hceq, ?_⟩
    have hsz := scanList_size q qr ch2 DirInfo.new reg2 cinfo reg3 hceq
    simp [DirInfo.new] at hsz
    simpa [childFs] using hsz

theorem claim_C3_witness :
    fixtureInfo.size = directBytes (childFs fixtureTree) +
        ((dirChildren (childFs fixtureTree)).map
          (fun c => forestBytes (childFs c))).sum ∧
      ∀ c ∈ dirChildren (childFs fixtureTree), ∀ q qr reg2, ∃ cinfo reg3,
        scanDirectory q qr c reg2 = (.ok cinfo, reg3) ∧
          cinfo.size = forestBytes (childFs c) :=
  claim_C3 ["root"] true "root" true (childFs fixtureTree) [] fixtureInfo fixtureReg
    fixture_scan

/-- Claim C4 (confirmed): the analogous recursive decomposition for
`file_count`: a successfully scanned directory counts its immediate
readable files plus each immediate subdirectory's subtree file count. -/
theorem claim_C4 (p : List String) (pr : Bool) (n : String) (r : Bool)
    (es : List FSEntry) (reg : Registry) (info : DirInfo) (reg' : Registry)
    (h : scanDirectory p pr (.dir n r (some es)) reg = (.ok info, reg')) :
    info.file_count = directCount es +
        ((dirChildren es).map (fun c => forestCount (childFs c))).sum ∧
      ∀ c ∈ dirChildren es, ∀ q qr reg2, ∃ cinfo reg3,
        scanDirectory q qr c reg2 = (.ok cinfo, reg3) ∧
          cinfo.file_count = forestCount (childFs c) := by
  have hs : scanList p pr es DirInfo.new reg = (.ok info, reg') := h
  constructor
  · have hct := scanList_count p pr es DirInfo.new reg info reg' hs
    simp [DirInfo.new] at hct
    rw [hct, forestCount_decomp]
  · intro c hc q qr reg2
    have hok : forestListable es = true := by
      have h2 := scanList_isOk p pr es DirInfo.new reg
      rw [hs] at h2
      simpa [Except.isOk, Except.toBool] using h2.symm
    obtain ⟨n2, r2, ch2, rfl, hch⟩ := dirChildren_listable es hok c hc
    have h3 : (scanList q qr ch2 DirInfo.new reg2).1.isOk = true := by
      rw [scanList_isOk]
      exact hch
    obtain ⟨cinfo, reg3, hceq⟩ := isOk_exists _ h3
    refine ⟨cinfo, reg3, hceq, ?_⟩
    have hct := scanList_count q qr ch2 DirInfo.new reg2 cinfo reg3 hceq
    simp [DirInfo.new] at hct
    simpa [childFs] using hct

theorem claim_C4_witness :
    fixtureInfo.file_count = directCount (childFs fixtureTree) +
        ((dirChildren (childFs fixtureTree)).map
          (fun c => forestCount (childFs c))).sum ∧
      ∀ c ∈ dirChildren (childFs fixtureTree), ∀ q qr reg2, ∃ cinfo reg3,
        scanDirectory q qr c reg2 = (.ok cinfo, reg3) ∧
          cinfo.file_count = forestCount (childFs c) :=
  claim_C4 ["root"] true "root" true (childFs fixtureTree) [] fixtureInfo fixtureReg
    fixture_scan

/-- Claim C5 (confirmed): a successfully scanned directory's
`largest_file` is the first maximal-size file of its subtree in traversal
order: it is one of the subtree's readable files, no file is larger, and it
is the first file whose size attains the maximum — the consequence of the
strict `>` comparison used for direct files and child merges alike. -/
theorem claim_C5 (p : List String) (pr : Bool) (n : String) (r : Bool)
    (es : List FSEntry) (reg : Registry) (info : DirInfo) (reg' : Registry)
    (h : scanDirectory p pr (.dir n r (some es)) reg = (.ok info, reg')) :
    info.largest_file = firstMax (forestFiles p es) ∧
      ∀ m, info.largest_file = some m →
        m ∈ forestFiles p es ∧ (∀ y ∈ forestFiles p es, y.2 ≤ m.2) ∧
          (forestFiles p es).find? (fun y => y.2 == m.2) = some m := by
  have hs : scanList p pr es DirInfo.new reg = (.ok info, reg') := h
  have hl := scanList_largest p pr es DirInfo.new reg info reg' hs
  have hl2 : info.largest_file = firstMax (forestFiles p es) := by
    rw [hl]
    simp [DirInfo.new, updLO_none]
  refine ⟨hl2, ?_⟩
  intro m hm
  rw [hl2] at hm
  exact ⟨firstMax_mem _ m hm, firstMax_ge _ m hm, firstMax_first _ m hm⟩

theorem claim_C5_witness :
    fixtureInfo.largest_file = firstMax (forestFiles ["root"] (childFs fixtureTree)) ∧
      ∀ m, fixtureInfo.largest_file = some m →
        m ∈ forestFiles ["root"] (childFs fixtureTree) ∧
          (∀ y ∈ forestFiles ["root"] (childFs fixtureTree), y.2 ≤ m.2) ∧
          (forestFiles ["root"] (childFs fixtureTree)).find?
            (fun y => y.2 == m.2) = some m :=
  claim_C5 ["root"] true "root" true (childFs fixtureTree) [] fixtureInfo fixtureReg
    fixture_scan

/-- Claim C1, amended (corrected): the extension histogram of a scanned
directory covers only its immediate readable regular files — the code never
merges `file_types` of a child into the parent (src/main.rs lines 123-143
copy `size`, `file_count` and `largest_file` but not `file_types`), so keys
do NOT accumulate sizes from nested subdirectories. -/
theorem claim_C1_amended (p : List String) (pr : Bool) (n : String) (r : Bool)
    (es : List FSEntry) (reg : Registry) (info : DirInfo) (reg' : Registry)
    (h : scanDirectory p pr (.dir n r (some es)) reg = (.ok info, reg')) :
    ∀ x, lookup0 info.file_types x = directExtBytes x es := by
  have hs : scanList p pr es DirInfo.new reg = (.ok info, reg') := h
  intro x
  have ht := scanList_types p pr es DirInfo.new reg info reg' hs x
  simpa [DirInfo.new, lookup0] using ht

theorem claim_C1_witness :
    lookup0 fixtureInfo.file_types "txt" = directExtBytes "txt" (childFs fixtureTree) :=
  claim_C1_amended ["root"] true "root" true (childFs fixtureTree) [] fixtureInfo
    fixtureReg fixture_scan "txt"

/-- Claim C1, counterexample: scanning `root/sub/a.txt (100 bytes)`
succeeds, yet the root's histogram is empty: its `"txt"` entry is `0`, not
the subtree total `100` the claim demands, refuting "each extension key
maps to the sum of the sizes of all readable regular files with that
extension anywhere in D's subtree". -/
theorem claim_C1_counterexample :
    scanDirectory ["root"] true
        (.dir "root" true (some [.dir "sub" true (some [.file "a.txt" (some 100)])])) [] =
      (.ok { size := 100, file_count := 1,
             largest_file := some (["root", "sub", "a.txt"], 100),
             file_types := [] },
       [(["root", "sub"],
         { size := 100, file_count := 1,
           largest_file := some (["root", "sub", "a.txt"], 100),
           file_types := [("txt", 100)] })]) ∧
      lookup0 ([] : List (String × Nat)) "txt" ≠
        specSubtreeExtBytes "txt" [.dir "sub" true (some [.file "a.txt" (some 100)])] := by
  constructor
  · simp [scanDirectory, scanList, updLO, addToMap, regInsert, DirInfo.new]
    decide
  · simp [lookup0, specSubtreeExtBytes]
    decide

/-- Claim C2, amended (corrected): when `scan_directory` fails, the
registry passed by `&mut` is NOT rolled back — every entry present before
the call is still present afterwards (insertions are never undone), and
entries registered for subdirectories completed before the failure remain;
they are unobservable at program level only because `main` propagates the
error without reading the registry. -/
theorem claim_C2_amended (p : List String) (pr : Bool) (e : FSEntry)
    (reg : Registry) (err : Unit) (reg' : Registry)
    (h : scanDirectory p pr e reg = (.error err, reg')) :
    ∀ k, (regLookup reg k).isSome = true → (regLookup reg' k).isSome = true := by
  intro k hk
  rcases e with ⟨n, mo⟩ | ⟨n, r, _ | ch⟩ | n
  · simp [scanDirectory] at h
  · simp [scanDirectory] at h
    rw [← h]
    exact hk
  · have hm := scanList_reg_mono p pr ch DirInfo.new reg k hk
    have h2 : (scanList p pr ch DirInfo.new reg).2 = reg' := by
      have h3 : scanList p pr ch DirInfo.new reg = (.error err, reg') := h
      rw [h3]
    rwa [h2] at hm
  · simp [scanDirectory] at h

theorem claim_C2_witness :
    (regLookup [(["keep"], DirInfo.new), (["root", "a"], DirInfo.new)] ["keep"]).isSome = true :=
  claim_C2_amended ["root"] true
    (.dir "root" true (some [.dir "a" true (some []), .dir "b" true none]))
    [(["keep"], DirInfo.new)] ()
    [(["keep"], DirInfo.new), (["root", "a"], DirInfo.new)]
    (by simp [scanDirectory, scanList, regInsert, DirInfo.new])
    ["keep"] (by simp [regLookup])

/-- Claim C2, counterexample: a root with a completed subdirectory `a` and
an unlistable subdirectory `b` makes `scan_directory` fail, yet the
registry after the failed call contains `a`'s entry — it is NOT unchanged
from the empty registry it started with, refuting "the registry mapping
observable after the failed call is unchanged from its state before the
call". -/
theorem claim_C2_counterexample :
    scanDirectory ["root"] true
        (.dir "root" true (some [.dir "a" true (some []), .dir "b" true none])) [] =
      (.error (), [(["root", "a"], DirInfo.new)]) ∧
      [(["root", "a"], DirInfo.new)] ≠ ([] : Registry) := by
  constructor
  · simp [scanDirectory, scanList, regInsert, DirInfo.new]
  · simp

/-- Claim C6 (confirmed): after a successful scan started with an empty
registry, the registry's keys are exactly the representable paths of the
subdirectories visited in the subtree (each key held once, since the
registry is a map with duplicate-free keys), and the scanned root itself
never appears. -/
theorem claim_C6 (p : List String) (pr : Bool) (n : String) (r : Bool)
    (es : List FSEntry) (info : DirInfo) (reg' : Registry)
    (h : scanDirectory p pr (.dir n r (some es)) [] = (.ok info, reg')) :
    (∀ k, (regLookup reg' k).isSome = true ↔ k ∈ subdirPaths p pr es) ∧
      (reg'.map Prod.fst).Nodup ∧ regLookup reg' p = none := by
  have hs : scanList p pr es DirInfo.new [] = (.ok info, reg') := h
  have hiff := scanList_reg p pr es DirInfo.new [] info reg' hs
  refine ⟨?_, ?_, ?_⟩
  · intro k
    rw [hiff k]
    simp [regLookup]
  · have hnd := scanList_nodup p pr es DirInfo.new [] (by simp)
    rw [hs] at hnd
    exact hnd
  · rcases ho : regLookup reg' p with _ | v
    · rfl
    · exfalso
      have hsome : (regLookup reg' p).isSome = true := by simp [ho]
      rw [hiff p] at hsome
      simp [regLookup] at hsome
      have := subdirPaths_length p pr es p hsome
      omega

theorem claim_C6_witness :
    (∀ k, (regLookup fixtureReg k).isSome = true ↔
        k ∈ subdirPaths ["root"] true (childFs fixtureTree)) ∧
      (fixtureReg.map Prod.fst).Nodup ∧ regLookup fixtureReg ["root"] = none :=
  claim_C6 ["root"] true "root" true (childFs fixtureTree) fixtureInfo fixtureReg
    fixture_scan

/-- Claim C7 (confirmed): if any directory that the scan must enumerate —
the target itself or any directory nested anywhere below it — cannot be
listed, `scan_directory` returns an I/O error: the failure propagates
through every enclosing recursive call and no aggregate is produced. -/
theorem claim_C7 (p : List String) (pr : Bool) (e : FSEntry) (reg : Registry)
    (h : entryListable e = false) :
    (scanDirectory p pr e reg).1 = .error () := by
  rcases e with ⟨n, mo⟩ | ⟨n, r, _ | ch⟩ | n
  · simp [entryListable] at h
  · rfl
  · have hok := scanList_isOk p pr ch DirInfo.new reg
    have hh : forestListable ch = false := h
    rw [hh] at hok
    show (scanList p pr ch DirInfo.new reg).1 = .error ()
    rcases hx : (scanList p pr ch DirInfo.new reg).1 with e' | i
    · cases e'
      rfl
    · rw [hx] at hok
      simp [Except.isOk, Except.toBool] at hok
  · simp [entryListable] at h

theorem claim_C7_witness :
    (scanDirectory ["root"] true (.dir "root" true none) []).1 = .error () :=
  claim_C7 ["root"] true (.dir "root" true none) [] rfl

/-- Claim C8 (confirmed): scanning a path that is not a directory (a
regular file or anything else) succeeds with the empty aggregate, leaves
the registry untouched, and coincides with scanning an empty directory. -/
theorem claim_C8 (p : List String) (pr : Bool) (e : FSEntry) (reg : Registry)
    (h : e.isDir = false) :
    scanDirectory p pr e reg = (.ok DirInfo.new, reg) ∧
      scanDirectory p pr e reg = scanDirectory p pr (.dir "d" true (some [])) reg := by
  have he : scanDirectory p pr e reg = (.ok DirInfo.new, reg) := by
    rcases e with ⟨n, mo⟩ | ⟨n, r, lo⟩ | n
    · rfl
    · simp [FSEntry.isDir] at h
    · rfl
  refine ⟨he, ?_⟩
  rw [he]
  show _ = scanList p pr [] DirInfo.new reg
  rw [scanList]

theorem claim_C8_witness :
    scanDirectory ["f.txt"] true (.file "f.txt" (some 5)) [] =
        (.ok DirInfo.new, []) ∧
      scanDirectory ["f.txt"] true (.file "f.txt" (some 5)) [] =
        scanDirectory ["f.txt"] true (.dir "d" true (some [])) [] :=
  claim_C8 ["f.txt"] true (.file "f.txt" (some 5)) [] rfl

/-- Claim C9 (confirmed): a regular file whose metadata cannot be read is
skipped silently — removing it from anywhere in the tree (any depth, any
position) leaves the scan of the enclosing directory entirely unchanged:
same success or failure, same aggregate (all statistics), same registry. -/
theorem claim_C9 (p : List String) (pr : Bool) (n : String) (r : Bool)
    {es es' : List FSEntry} (hd : dropUnreadable es es') (reg : Registry) :
    scanDirectory p pr (.dir n r (some es)) reg =
      scanDirectory p pr (.dir n r (some es')) reg :=
  scanList_drop hd p pr DirInfo.new reg

theorem claim_C9_witness :
    scanDirectory ["root"] true
        (.dir "root" true (some [.file "ghost" none, .file "a.txt" (some 100)])) [] =
      scanDirectory ["root"] true
        (.dir "root" true (some [.file "a.txt" (some 100)])) [] :=
  claim_C9 ["root"] true "root" true
    (dropUnreadable.here "ghost" [.file "a.txt" (some 100)]) []

/-- Claim C10 (confirmed): every aggregate a successful scan returns is
internally consistent: `largest_file` is `none` exactly when `file_count`
is zero, and a recorded largest size never exceeds `total_bytes`; the
invariant is maintained through both direct-file updates and child
merges. -/
theorem claim_C10 (p : List String) (pr : Bool) (e : FSEntry) (reg : Registry)
    (info : DirInfo) (reg' : Registry)
    (h : scanDirectory p pr e reg = (.ok info, reg')) :
    (info.largest_file = none ↔ info.file_count = 0) ∧
      ∀ q s, info.largest_file = some (q, s) → s ≤ info.size := by
  rcases e with ⟨n, mo⟩ | ⟨n, r, _ | ch⟩ | n
  · simp [scanDirectory] at h
    rw [← h.1]
    exact DirInfo.wf_new
  · simp [scanDirectory] at h
  · exact scanList_wf p pr ch DirInfo.new reg DirInfo.wf_new info reg' h
  · simp [scanDirectory] at h
    rw [← h.1]
    exact DirInfo.wf_new

theorem claim_C10_witness :
    (fixtureInfo.largest_file = none ↔ fixtureInfo.file_count = 0) ∧
      ∀ q s, fixtureInfo.largest_file = some (q, s) → s ≤ fixtureInfo.size :=
  claim_C10 ["root"] true fixtureTree [] fixtureInfo fixtureReg fixture_scan

end Diskspace
